import Mathlib

/-!
Verification of the duplicate-detection and resolution engine of
`image_clone_remover.py` (with the prefix-hash helper of
`image_splitter_by_ratio.py`), shallowly embedded in Lean.

Modelling conventions:
* Paths and fingerprints are `String`s (MD5 hex digests in the source).
* Python `dict`s are embedded as insertion-ordered association lists with
  first-match lookup (`alookup`); `defaultdict(list)`-style append is
  `dappend`, `dict.__setitem__` is `dset`.
* External effects are oracles passed as function parameters: `hashOf`
  models `calculate_image_hash` (PIL decode + MD5: `None` on failure,
  a digest otherwise), `statOf` models `os.stat` results, and the
  copy/remove success oracles model `shutil.copy2` / `os.remove`.
* The `threading.Lock` held around the read-check-then-append in
  `process_image` serializes index updates, so a concurrent run is an
  interleaving, i.e. some permutation, of the atomic per-file updates;
  concurrency claims are stated as permutation invariance.
* `st_mtime` (a Python float) and `st_size` are modelled as integers;
  `os.stat` never produces NaN for them, so ordering is unaffected.
-/

/-- First-match lookup in an association list (Python `dict` access /
membership test). -/
def alookup {α : Type} : List (String × α) → String → Option α
  | [], _ => none
  | (k, v) :: m, h => if k = h then some v else alookup m h

/-- Python `defaultdict(list)` append: `m[h].append(p)` creates the key with `[p]`
when absent, else appends to the stored list. -/
def dappend : List (String × List String) → String → String →
    List (String × List String)
  | [], h, p => [(h, [p])]
  | (k, v) :: m, h, p =>
    if k = h then (k, v ++ [p]) :: m else (k, v) :: dappend m h p

/-- Python `dict` assignment `m[h] = p`: overwrite if present, else append. -/
def dset : List (String × String) → String → String →
    List (String × String)
  | [], h, p => [(h, p)]
  | (k, v) :: m, h, p =>
    if k = h then (k, p) :: m else (k, v) :: dset m h p

/-- Mutable state of `DuplicateImageDetector` (`__init__`, lines 11-17):
`image_hashes` maps each fingerprint to the first file found with it,
`duplicates` maps a fingerprint to the ordered list of all its files once a
second one appears, `processed_count` counts successfully hashed files. -/
structure DetectorState where
  image_hashes : List (String × String)
  duplicates : List (String × List String)
  processed_count : Nat
deriving DecidableEq, Repr

/-- The detector's initial state (`__init__`). -/
def initState : DetectorState := ⟨[], [], 0⟩

/-- Embedding of `DuplicateImageDetector.process_image` (lines 41-57).  `hashOf` is the
`calculate_image_hash` oracle: `none` when PIL raises (the function returns
`None`, which is falsy, as is the never-produced empty string), otherwise
the MD5 hex digest of the 8x8 grayscale downsample.  On failure nothing at
all is updated (not even `processed_count`). -/
def process_image (hashOf : String → Option String) (st : DetectorState)
    (p : String) : DetectorState :=
  match hashOf p with
  | none => st
  | some h =>
    match alookup st.image_hashes h with
    | some first =>
      let d1 := if (alookup st.duplicates h).isSome then st.duplicates
                else dappend st.duplicates h first
      { st with duplicates := dappend d1 h p,
                processed_count := st.processed_count + 1 }
    | none =>
      { st with image_hashes := dset st.image_hashes h p,
                processed_count := st.processed_count + 1 }

/-- Sequential processing of a batch of files: the executor submits each
path to `process_image`; the global lock makes each call atomic, so a run
is `processAll` over some completion order of the paths. -/
def processAll (hashOf : String → Option String) (ps : List String)
    (st : DetectorState) : DetectorState :=
  ps.foldl (process_image hashOf) st

/-- The files of `ps` whose fingerprint is `h`, in processing order. -/
def filt (hashOf : String → Option String) (ps : List String) (h : String) :
    List String :=
  ps.filter (fun p => hashOf p = some h)

/-- The conceptual duplicate group of fingerprint `h` held by a state: the
`duplicates` entry when present, else the singleton from `image_hashes`,
else empty. -/
def groupOf (st : DetectorState) (h : String) : List String :=
  match alookup st.duplicates h with
  | some l => l
  | none =>
    match alookup st.image_hashes h with
    | some p => [p]
    | none => []

/-- Closed-form description of the detector state after processing `ps`. -/
def stateSpec (hashOf : String → Option String) (ps : List String)
    (st : DetectorState) : Prop :=
  (∀ h, alookup st.image_hashes h = (filt hashOf ps h).head?) ∧
  (∀ h, alookup st.duplicates h =
     if 2 ≤ (filt hashOf ps h).length then some (filt hashOf ps h)
     else none) ∧
  st.processed_count = (ps.filter (fun p => (hashOf p).isSome)).length
/-- Concrete fingerprint oracle used to instantiate theorems: `a.jpg` and
`b.jpg` decode to the same digest, `c.jpg` to another, `bad.jpg` fails. -/
def hashOracle0 : String → Option String := fun p =>
  if p = "a.jpg" then some "h1"
  else if p = "b.jpg" then some "h1"
  else if p = "c.jpg" then some "h2"
  else none

/-- Concrete scan result used to instantiate theorems. -/
def paths0 : List String := ["a.jpg", "b.jpg", "c.jpg", "bad.jpg"]

/-- The fields of `get_file_info`'s result dict (lines 153-165) used by
selection and resolution (`name` is only printed).  `size`/`mtime` are the
`os.stat` values, modelled as integers. -/
structure FileInfo where
  path : String
  size : Int
  mtime : Int
deriving DecidableEq, Repr

/-- The five deletion strategies of `choose_files_to_keep` (line 167 and
`strategies` at lines 326-332). -/
inductive Strategy where
  | newest
  | oldest
  | largest
  | smallest
  | manual
deriving DecidableEq, Repr

/-- Embedding of `get_file_info` (lines 153-165): `statOf` is the `os.stat` oracle,
`none` when it raises; on success the record carries the queried path. -/
def get_file_info (statOf : String → Option (Int × Int)) (p : String) :
    Option FileInfo :=
  match statOf p with
  | some sm => some ⟨p, sm.1, sm.2⟩
  | none => none

/-- Python `max(xs, key=k)` with `xs = x :: rest`: scan left to right,
replacing the current best only on a strictly larger key, so the FIRST
maximal element wins ties. -/
def pyMax (key : FileInfo → Int) (x : FileInfo) : List FileInfo → FileInfo
  | [] => x
  | a :: t => if key x < key a then pyMax key a t else pyMax key x t

/-- Python `min(xs, key=k)`: the FIRST minimal element wins ties. -/
def pyMin (key : FileInfo → Int) (x : FileInfo) : List FileInfo → FileInfo
  | [] => x
  | a :: t => if key a < key x then pyMin key a t else pyMin key x t

/-- The strategy dispatch of `choose_files_to_keep` (lines 186-197) on the
nonempty stat-success list `x :: xs`: `max`/`min` by `mtime` or `size`, or
the injected `manual_file_selection` (`chooser`). -/
def keeperFor (chooser : List FileInfo → FileInfo) (strategy : Strategy)
    (x : FileInfo) (xs : List FileInfo) : FileInfo :=
  match strategy with
  | .newest => pyMax (fun i => i.mtime) x xs
  | .oldest => pyMin (fun i => i.mtime) x xs
  | .largest => pyMax (fun i => i.size) x xs
  | .smallest => pyMin (fun i => i.size) x xs
  | .manual => chooser (x :: xs)

/-- The body of `choose_files_to_keep`'s per-group loop (lines 172-204):
skip groups of size <= 1, stat the members keeping only successes, pick the
keeper by strategy (`chooser` is the injected `manual_file_selection`), and
list the paths of the other statted members for deletion. -/
def chooseForGroup (statOf : String → Option (Int × Int))
    (chooser : List FileInfo → FileInfo) (strategy : Strategy)
    (file_list : List String) : Option (FileInfo × List String) :=
  if file_list.length ≤ 1 then none
  else
    match file_list.filterMap (get_file_info statOf) with
    | [] => none
    | x :: xs =>
      let keep_file := keeperFor chooser strategy x xs
      some (keep_file,
        ((x :: xs).filter (fun i => i.path ≠ keep_file.path)).map
          (fun i => i.path))

/-- Embedding of `choose_files_to_keep` (lines 167-206): fold the per-group choice over
all duplicate groups, concatenating keepers and deletion candidates. -/
def choose_files_to_keep (statOf : String → Option (Int × Int))
    (chooser : List FileInfo → FileInfo) (strategy : Strategy)
    (groups : List (String × List String)) : List String × List String :=
  groups.foldl (fun acc g =>
    match chooseForGroup statOf chooser strategy g.2 with
    | none => acc
    | some kd => (acc.1 ++ [kd.1.path], acc.2 ++ kd.2)) ([], [])

/-- Split a character list at the LAST occurrence of `c` (CPython
`str.rfind`): `some (pre, suf)` with `cs = pre ++ c :: suf` and `c ∉ suf`,
else `none`. -/
def breakLast (c : Char) : List Char → Option (List Char × List Char)
  | [] => none
  | a :: cs =>
    match breakLast c cs with
    | some pq => some (a :: pq.1, pq.2)
    | none => if a = c then some ([], cs) else none

/-- CPython `os.path.basename`: the part after the last `/`. -/
def basename (p : String) : String :=
  match breakLast '/' p.data with
  | some pq => pq.2.asString
  | none => p

/-- Helper for `splitext`: split the basename `b` (with directory part
`d`) at its last dot, unless everything before that dot is dots. -/
def splitextAux (d b : List Char) : String × String :=
  match breakLast '.' b with
  | none => ((d ++ b).asString, "")
  | some ne =>
    if ne.1.all (fun ch => ch = '.') then ((d ++ b).asString, "")
    else ((d ++ ne.1).asString, ('.' :: ne.2).asString)

/-- CPython `os.path.splitext`: the extension starts at the last dot of
the basename provided some earlier basename character is not a dot. -/
def splitext (p : String) : String × String :=
  match breakLast '/' p.data with
  | some pq => splitextAux (pq.1 ++ ['/']) pq.2
  | none => splitextAux [] p.data

/-- CPython `posixpath.join` for two components (line 269's
`os.path.join(backup_dir, basename)`). -/
def joinPath (a b : String) : String :=
  if b.data.head? = some '/' then b
  else if a = "" ∨ a.data.getLast? = some '/' then a ++ b
  else a ++ "/" ++ b

/-- The backup target tried at suffix-search step `i` (lines 270-276):
the unsuffixed name first, then `f"{name}_{counter}{ext}"` for counter
`i >= 1` where `(name, ext) = splitext(base)`. -/
def candidate (base : String) : Nat → String
  | 0 => base
  | i + 1 => (splitext base).1 ++ "_" ++ Nat.repr (i + 1) ++ (splitext base).2

/-- The `while os.path.exists(backup_path)` loop (lines 273-276), fuelled:
starting at suffix index `i`, return the first index whose candidate is
not an existing path.  `findBackupPath` supplies fuel `fs.length + 1`,
which provably suffices. -/
def searchFree (fs : List String) (base : String) : Nat → Nat → Nat
  | i, 0 => i
  | i, fuel + 1 =>
    if candidate base i ∈ fs then searchFree fs base (i + 1) fuel else i

/-- The collision-free backup path picked by lines 269-276 given the set
`fs` of existing paths. -/
def findBackupPath (fs : List String) (base : String) : String :=
  candidate base (searchFree fs base 0 (fs.length + 1))

/-- Failure oracles for the resolution phase: whether `shutil.copy2`
(resp. `os.remove`) succeeds for given source/target. -/
structure ResolutionEnv where
  copyOk : String → String → Bool
  removeOk : String → Bool

/-- State threaded through `delete_duplicate_files`: the existing paths
(consulted by `os.path.exists`, extended by `copy2`, shrunk by `remove`)
and the two result lists. -/
structure DeleteState where
  fs : List String
  deleted_files : List String
  failed_deletions : List (String × String)
deriving DecidableEq, Repr

/-- One iteration of the deletion loop (lines 265-289): with a backup dir,
pick a collision-free backup name and copy; any failure (copy or remove)
aborts only this file's handling via the `except` and is recorded in
`failed_deletions`; only after a successful copy is the file removed. -/
def deleteOne (env : ResolutionEnv) (backup_dir : Option String)
    (st : DeleteState) (file_path : String) : DeleteState :=
  match backup_dir with
  | some bd =>
    let backup_path := findBackupPath st.fs (joinPath bd (basename file_path))
    if env.copyOk file_path backup_path then
      if env.removeOk file_path then
        ⟨(backup_path :: st.fs).erase file_path,
         st.deleted_files ++ [file_path], st.failed_deletions⟩
      else
        ⟨backup_path :: st.fs, st.deleted_files,
         st.failed_deletions ++ [(file_path, "remove error")]⟩
    else
      ⟨st.fs, st.deleted_files,
       st.failed_deletions ++ [(file_path, "copy error")]⟩
  | none =>
    if env.removeOk file_path then
      ⟨st.fs.erase file_path, st.deleted_files ++ [file_path],
       st.failed_deletions⟩
    else
      ⟨st.fs, st.deleted_files,
       st.failed_deletions ++ [(file_path, "remove error")]⟩

/-- Embedding of `delete_duplicate_files` (lines 253-291). -/
def delete_duplicate_files (env : ResolutionEnv)
    (files_to_delete : List String) (backup_dir : Option String)
    (st : DeleteState) : DeleteState :=
  files_to_delete.foldl (deleteOne env backup_dir) st

/-- Embedding of `AdvancedImageSorter.calculate_file_hash` of
`image_splitter_by_ratio.py` (lines 99-107): the digest is computed from
ONLY the first 8192 bytes (`f.read(8192)`).  `md5` is the digest oracle (a
fixed deterministic function of the digested bytes); an unreadable file
(`except`) yields `""`. -/
def calculate_file_hash (md5 : List Nat → String)
    (content : Option (List Nat)) : String :=
  match content with
  | some bytes => md5 (bytes.take 8192)
  | none => ""

/-- The accepted extension set of `find_image_files` (line 61). -/
def image_extensions : List String :=
  [".jpg", ".jpeg", ".png", ".JPG", ".JPEG", ".PNG"]

/-- Python `file.endswith(ext)` (line 68). -/
def endswith (file ex : String) : Bool := ex.data.isSuffixOf file.data

/-- Embedding of `find_image_files` (lines 59-71) over the `os.walk` output, modelled
as the `(root, files)` pairs the walk yields (the `dirs` component is
unused by the source loop). -/
def find_image_files (walk : List (String × List String)) : List String :=
  walk.flatMap (fun rf =>
    (rf.2.filter (fun file =>
      image_extensions.any (fun ex => endswith file ex))).map
      (fun file => joinPath rf.1 file))

/-- Modelled from the spec: "a set of accepted extensions
(case-insensitive)" — a file matches when its lowercased name ends in one
of the lowercased extensions. -/
def specMatchesCaseInsensitive (file : String) : Bool :=
  [".jpg", ".jpeg", ".png"].any
    (fun ex => ex.data.isSuffixOf (file.data.map Char.toLower))

/-- Python code-point comparison `a < b` on strings, as used by the spec's
"lexicographic path order" tie-break. -/
def lexLt : List Char → List Char → Bool
  | [], [] => false
  | [], _ :: _ => true
  | _ :: _, [] => false
  | a :: as, b :: bs =>
    if a.toNat < b.toNat then true
    else if b.toNat < a.toNat then false
    else lexLt as bs

/-- Modelled from the spec: the `Newest` keeper — compare by modification
timestamp, ties broken by lexicographic path order (the member with
maximal `mtime` whose path is lexicographically least among those). -/
def specKeeperNewest (x : FileInfo) : List FileInfo → FileInfo
  | [] => x
  | a :: t =>
    if x.mtime < a.mtime ∨ (x.mtime = a.mtime ∧ lexLt a.path.data x.path.data)
    then specKeeperNewest a t
    else specKeeperNewest x t

/-- First-maximum characterization: `r` occurs in `l` after strictly
smaller keys only, and every later key is no larger. -/
def firstArgmaxSpec (key : FileInfo → Int) (l : List FileInfo)
    (r : FileInfo) : Prop :=
  ∃ l1 l2, l = l1 ++ r :: l2 ∧ (∀ a ∈ l1, key a < key r) ∧
    ∀ a ∈ l2, key a ≤ key r

/-- First-minimum characterization, mirror of `firstArgmaxSpec`. -/
def firstArgminSpec (key : FileInfo → Int) (l : List FileInfo)
    (r : FileInfo) : Prop :=
  ∃ l1 l2, l = l1 ++ r :: l2 ∧ (∀ a ∈ l1, key r < key a) ∧
    ∀ a ∈ l2, key r ≤ key a

/-- Concrete stat oracle: both files exist with equal size and mtime. -/
def statOracleTie : String → Option (Int × Int) := fun p =>
  if p = "a.jpg" ∨ p = "b.jpg" then some (1, 5) else none

/-- Concrete stat oracle: stat succeeds for `a.jpg`, raises for
`b.jpg`. -/
def statOracleBad : String → Option (Int × Int) := fun p =>
  if p = "a.jpg" then some (1, 5) else none

/-- Concrete stat oracle with distinct sizes and mtimes. -/
def statOracle0 : String → Option (Int × Int) := fun p =>
  if p = "a.jpg" then some (10, 100)
  else if p = "b.jpg" then some (20, 50)
  else none

/-- Concrete manual chooser (never consulted by the non-manual
strategies). -/
def chooser0 : List FileInfo → FileInfo := fun l => l.headD ⟨"", 0, 0⟩

/-- Concrete environment in which every copy and remove succeeds. -/
def envAll : ResolutionEnv := ⟨fun _ _ => true, fun _ => true⟩

/-- Concrete environment in which every copy fails (full backup disk). -/
def envCopyFail : ResolutionEnv := ⟨fun _ _ => false, fun _ => true⟩

/-- Numeric value of a decimal digit character (left inverse of
`Nat.digitChar` below 10; used to invert `Nat.repr`). -/
def charVal (c : Char) : Nat := c.toNat - 48

/-- Value of a big-endian decimal digit string (left inverse of
`Nat.toDigits 10`). -/
def digitsVal : List Char → Nat
  | [] => 0
  | c :: cs => charVal c * 10 ^ cs.length + digitsVal cs

theorem alookup_dappend_self (m : List (String × List String))
    (h : String) (p : String) :
    alookup (dappend m h p) h = some ((alookup m h).getD [] ++ [p]) := by
  induction m with
  | nil => simp [dappend, alookup]
  | cons kv m ih =>
    obtain ⟨k, v⟩ := kv
    by_cases hk : k = h
    · subst hk
      simp [dappend, alookup]
    · simp [dappend, alookup, hk, ih]

theorem alookup_dappend_ne (m : List (String × List String))
    (h h' : String) (p : String) (hne : h' ≠ h) :
    alookup (dappend m h p) h' = alookup m h' := by
  induction m with
  | nil => simp [dappend, alookup, Ne.symm hne]
  | cons kv m ih =>
    obtain ⟨k, v⟩ := kv
    by_cases hk : k = h
    · subst hk
      simp [dappend, alookup, Ne.symm hne]
    · by_cases hk' : k = h'
      · subst hk'
        simp [dappend, alookup, hk]
      · simp [dappend, alookup, hk, hk', ih]

theorem alookup_dset_self (m : List (String × String)) (h p : String) :
    alookup (dset m h p) h = some p := by
  induction m with
  | nil => simp [dset, alookup]
  | cons kv m ih =>
    obtain ⟨k, v⟩ := kv
    by_cases hk : k = h
    · subst hk
      simp [dset, alookup]
    · simp [dset, alookup, hk, ih]

theorem alookup_dset_ne (m : List (String × String)) (h h' p : String)
    (hne : h' ≠ h) :
    alookup (dset m h p) h' = alookup m h' := by
  induction m with
  | nil => simp [dset, alookup, Ne.symm hne]
  | cons kv m ih =>
    obtain ⟨k, v⟩ := kv
    by_cases hk : k = h
    · subst hk
      simp [dset, alookup, Ne.symm hne]
    · by_cases hk' : k = h'
      · subst hk'
        simp [dset, alookup, hk]
      · simp [dset, alookup, hk, hk', ih]

theorem filt_append_none (hashOf : String → Option String)
    (ps : List String) (p : String) (hp : hashOf p = none) (h : String) :
    filt hashOf (ps ++ [p]) h = filt hashOf ps h := by
  simp [filt, List.filter_append, hp]

theorem filt_append_some_self (hashOf : String → Option String)
    (ps : List String) (p : String) (h : String) (hp : hashOf p = some h) :
    filt hashOf (ps ++ [p]) h = filt hashOf ps h ++ [p] := by
  simp [filt, List.filter_append, hp]

theorem filt_append_some_ne (hashOf : String → Option String)
    (ps : List String) (p : String) (h h' : String)
    (hp : hashOf p = some h) (hne : h' ≠ h) :
    filt hashOf (ps ++ [p]) h' = filt hashOf ps h' := by
  simp [filt, List.filter_append, hp, Ne.symm hne]

theorem process_image_none (hashOf : String → Option String)
    (st : DetectorState) (p : String) (hp : hashOf p = none) :
    process_image hashOf st p = st := by
  simp [process_image, hp]

theorem process_image_new (hashOf : String → Option String)
    (st : DetectorState) (p h : String) (hp : hashOf p = some h)
    (hfirst : alookup st.image_hashes h = none) :
    process_image hashOf st p =
      { st with image_hashes := dset st.image_hashes h p,
                processed_count := st.processed_count + 1 } := by
  simp [process_image, hp, hfirst]

theorem process_image_dup (hashOf : String → Option String)
    (st : DetectorState) (p h first : String) (hp : hashOf p = some h)
    (hfirst : alookup st.image_hashes h = some first) :
    process_image hashOf st p =
      ⟨st.image_hashes,
       dappend (if (alookup st.duplicates h).isSome then st.duplicates
         else dappend st.duplicates h first) h p,
       st.processed_count + 1⟩ := by
  simp [process_image, hp, hfirst]

theorem stateSpec_step (hashOf : String → Option String) (ps : List String)
    (st : DetectorState) (p : String) (hs : stateSpec hashOf ps st) :
    stateSpec hashOf (ps ++ [p]) (process_image hashOf st p) := by
  obtain ⟨hIH, hD, hC⟩ := hs
  cases hp : hashOf p with
  | none =>
    rw [process_image_none hashOf st p hp]
    refine ⟨?_, ?_, ?_⟩
    · intro h
      rw [filt_append_none hashOf ps p hp, hIH]
    · intro h
      rw [filt_append_none hashOf ps p hp, hD]
    · rw [hC]
      simp [List.filter_append, hp]
  | some h₀ =>
    cases hfirst : alookup st.image_hashes h₀ with
    | none =>
      have hempty : filt hashOf ps h₀ = [] := by
        have hx := hIH h₀
        rw [hfirst] at hx
        cases hf : filt hashOf ps h₀ with
        | nil => rfl
        | cons a l => rw [hf] at hx; simp at hx
      rw [process_image_new hashOf st p h₀ hp hfirst]
      refine ⟨?_, ?_, ?_⟩
      · intro h
        by_cases hh : h = h₀
        · subst hh
          simp only
          rw [alookup_dset_self,
            filt_append_some_self hashOf ps p h hp, hempty]
          rfl
        · simp only
          rw [alookup_dset_ne _ _ _ _ hh,
            filt_append_some_ne hashOf ps p h₀ h hp hh, hIH]
      · intro h
        by_cases hh : h = h₀
        · subst hh
          simp only
          rw [filt_append_some_self hashOf ps p h hp, hempty, hD, hempty]
          simp
        · simp only
          rw [filt_append_some_ne hashOf ps p h₀ h hp hh, hD]
      · simp only
        rw [hC]
        simp [List.filter_append, hp]
    | some first =>
      have hhead : (filt hashOf ps h₀).head? = some first := by
        have hx := hIH h₀
        rw [hfirst] at hx
        exact hx.symm
      obtain ⟨tl, htl⟩ : ∃ tl, filt hashOf ps h₀ = first :: tl := by
        cases hf : filt hashOf ps h₀ with
        | nil => rw [hf] at hhead; simp at hhead
        | cons a l =>
          rw [hf] at hhead
          simp at hhead
          exact ⟨l, by rw [hhead]⟩
      rw [process_image_dup hashOf st p h₀ first hp hfirst]
      refine ⟨?_, ?_, ?_⟩
      · intro h
        by_cases hh : h = h₀
        · subst hh
          simp only
          rw [hIH, filt_append_some_self hashOf ps p h hp, htl]
          simp
        · simp only
          rw [hIH, filt_append_some_ne hashOf ps p h₀ h hp hh]
      · intro h
        by_cases hh : h = h₀
        · subst hh
          simp only
          rw [filt_append_some_self hashOf ps p h hp, htl]
          cases htl' : tl with
          | nil =>
            have hd := hD h
            rw [htl, htl'] at hd
            simp at hd
            rw [hd]
            simp only [Option.isSome_none, Bool.false_eq_true, if_false]
            rw [alookup_dappend_self, alookup_dappend_self, hd]
            simp
          | cons b l =>
            have hd := hD h
            rw [htl, htl'] at hd
            simp at hd
            rw [hd]
            simp only [Option.isSome_some, if_true]
            rw [alookup_dappend_self, hd]
            simp [htl']
        · simp only
          rw [filt_append_some_ne hashOf ps p h₀ h hp hh]
          by_cases hdup : (alookup st.duplicates h₀).isSome
          · simp only [hdup, if_true]
            rw [alookup_dappend_ne _ _ _ _ hh, hD]
          · simp only [hdup, Bool.false_eq_true, if_false]
            rw [alookup_dappend_ne _ _ _ _ hh,
              alookup_dappend_ne _ _ _ _ hh, hD]
      · simp only
        rw [hC]
        simp [List.filter_append, hp]
theorem stateSpec_processAll_aux (hashOf : String → Option String)
    (ps : List String) : ∀ (done : List String) (st : DetectorState),
    stateSpec hashOf done st →
    stateSpec hashOf (done ++ ps) (processAll hashOf ps st) := by
  induction ps with
  | nil => intro done st h; simpa [processAll] using h
  | cons p ps ih =>
    intro done st h
    have h' := stateSpec_step hashOf done st p h
    have := ih (done ++ [p]) (process_image hashOf st p) h'
    simpa [processAll, List.append_assoc] using this

theorem stateSpec_initState (hashOf : String → Option String) :
    stateSpec hashOf [] initState := by
  refine ⟨?_, ?_, ?_⟩ <;> simp [initState, alookup, filt]

/-- Master characterization: after processing `ps` from the initial state,
`image_hashes` holds the first file of each fingerprint and `duplicates`
holds exactly the fingerprints with at least two files, mapped to all their
files in processing order. -/
theorem stateSpec_processAll (hashOf : String → Option String)
    (ps : List String) :
    stateSpec hashOf ps (processAll hashOf ps initState) := by
  have := stateSpec_processAll_aux hashOf ps [] initState
    (stateSpec_initState hashOf)
  simpa using this

theorem mem_filt_iff (hashOf : String → Option String) (ps : List String)
    (h p : String) :
    p ∈ filt hashOf ps h ↔ p ∈ ps ∧ hashOf p = some h := by
  simp [filt]

theorem two_le_length_of_mem_ne {α : Type} {l : List α} {a b : α}
    (ha : a ∈ l) (hb : b ∈ l) (hne : a ≠ b) : 2 ≤ l.length := by
  cases l with
  | nil => simp at ha
  | cons x t =>
    cases t with
    | nil =>
      simp at ha hb
      exact absurd (ha.trans hb.symm) hne
    | cons y t' => simp [Nat.succ_le_succ, Nat.le_add_left]

/-- The conceptual group of fingerprint `h` in the final state is exactly
the set of processed files with digest `h`, in completion order. -/
theorem groupOf_processAll (hashOf : String → Option String)
    (ps : List String) (h : String) :
    groupOf (processAll hashOf ps initState) h = filt hashOf ps h := by
  obtain ⟨hI, hD, -⟩ := stateSpec_processAll hashOf ps
  rw [groupOf, hD h, hI h]
  by_cases hlen : 2 ≤ (filt hashOf ps h).length
  · simp [hlen]
  · simp only [hlen, if_false]
    cases hf : filt hashOf ps h with
    | nil => rfl
    | cons a t =>
      cases t with
      | nil => rfl
      | cons b t' => rw [hf] at hlen; simp at hlen

/-- C4: after the grouping phase over inputs `ps`, (a) every file with a
successfully computed fingerprint lies in the group of its own fingerprint
and in no other, (b) the union of all group memberships is exactly the set
of successfully hashed input files, and (c) every group present in the
reported `duplicates` index has at least two members. -/
theorem partition_after_grouping (hashOf : String → Option String)
    (ps : List String) :
    (∀ p h, p ∈ ps → hashOf p = some h →
       p ∈ groupOf (processAll hashOf ps initState) h ∧
       ∀ h', p ∈ groupOf (processAll hashOf ps initState) h' → h' = h) ∧
    (∀ p, (∃ h, p ∈ groupOf (processAll hashOf ps initState) h) ↔
       (p ∈ ps ∧ (hashOf p).isSome)) ∧
    (∀ h l, alookup (processAll hashOf ps initState).duplicates h = some l →
       2 ≤ l.length) := by
  refine ⟨?_, ?_, ?_⟩
  · intro p h hmem hh
    constructor
    · rw [groupOf_processAll, mem_filt_iff]
      exact ⟨hmem, hh⟩
    · intro h' hmem'
      rw [groupOf_processAll, mem_filt_iff] at hmem'
      have := hmem'.2.symm.trans hh
      exact (Option.some_inj.mp this.symm).symm
  · intro p
    constructor
    · rintro ⟨h, hmem⟩
      rw [groupOf_processAll, mem_filt_iff] at hmem
      exact ⟨hmem.1, by rw [hmem.2]; rfl⟩
    · rintro ⟨hmem, hsome⟩
      cases hh : hashOf p with
      | none => rw [hh] at hsome; simp at hsome
      | some h =>
        exact ⟨h, by rw [groupOf_processAll, mem_filt_iff]; exact ⟨hmem, hh⟩⟩
  · intro h l hl
    obtain ⟨-, hD, -⟩ := stateSpec_processAll hashOf ps
    rw [hD h] at hl
    by_cases hlen : 2 ≤ (filt hashOf ps h).length
    · rw [if_pos hlen] at hl
      cases hl
      exact hlen
    · rw [if_neg hlen] at hl
      cases hl

/-- Witness for C4 at a concrete run: `a.jpg` lands exactly in the group of
its digest `h1`, and the reported group for `h1` has two members. -/
theorem partition_after_grouping_witness :
    "a.jpg" ∈ groupOf (processAll hashOracle0 paths0 initState) "h1" ∧
    (∀ h', "a.jpg" ∈ groupOf (processAll hashOracle0 paths0 initState) h' →
      h' = "h1") ∧
    (∀ l, alookup (processAll hashOracle0 paths0 initState).duplicates
      "h1" = some l → 2 ≤ l.length) := by
  obtain ⟨h1, -, h3⟩ := partition_after_grouping hashOracle0 paths0
  obtain ⟨ha, hb⟩ := h1 "a.jpg" "h1" (by decide) (by decide)
  exact ⟨ha, hb, fun l hl => h3 "h1" l hl⟩

/-- C7 under the lock-serialization model: any two completion orders of the
same set of files produce groups with identical membership (equal up to
permutation, hence equal as sets), and any two distinct files sharing a
fingerprint both land in the single `duplicates` entry for it — no lost
update and no two groups for one fingerprint. -/
theorem group_membership_schedule_invariant
    (hashOf : String → Option String) (ps ps' : List String)
    (hperm : ps.Perm ps') :
    (∀ h, (groupOf (processAll hashOf ps initState) h).Perm
       (groupOf (processAll hashOf ps' initState) h)) ∧
    (∀ p q h, p ∈ ps → q ∈ ps → p ≠ q →
       hashOf p = some h → hashOf q = some h →
       ∃ l, alookup (processAll hashOf ps initState).duplicates h = some l ∧
         p ∈ l ∧ q ∈ l) := by
  constructor
  · intro h
    rw [groupOf_processAll, groupOf_processAll]
    exact hperm.filter _
  · intro p q h hp hq hne hhp hhq
    obtain ⟨-, hD, -⟩ := stateSpec_processAll hashOf ps
    have hpmem : p ∈ filt hashOf ps h := (mem_filt_iff _ _ _ _).mpr ⟨hp, hhp⟩
    have hqmem : q ∈ filt hashOf ps h := (mem_filt_iff _ _ _ _).mpr ⟨hq, hhq⟩
    have hlen : 2 ≤ (filt hashOf ps h).length :=
      two_le_length_of_mem_ne hpmem hqmem hne
    exact ⟨filt hashOf ps h, by rw [hD h, if_pos hlen], hpmem, hqmem⟩

/-- Witness for C7: a transposed completion order yields the same `h1`
group membership, and the two same-digest files share one group entry. -/
theorem group_membership_schedule_invariant_witness :
    (groupOf (processAll hashOracle0 paths0 initState) "h1").Perm
      (groupOf (processAll hashOracle0
        ["b.jpg", "a.jpg", "c.jpg", "bad.jpg"] initState) "h1") ∧
    ∃ l, alookup (processAll hashOracle0 paths0 initState).duplicates
        "h1" = some l ∧ "a.jpg" ∈ l ∧ "b.jpg" ∈ l := by
  obtain ⟨hg, hl⟩ := group_membership_schedule_invariant hashOracle0 paths0
    ["b.jpg", "a.jpg", "c.jpg", "bad.jpg"] (by decide)
  exact ⟨hg "h1", hl "a.jpg" "b.jpg" "h1" (by decide) (by decide)
    (by decide) (by decide) (by decide)⟩

/-- C10: at every point of a run (i.e. after any processed prefix `ps`),
a fingerprint has an entry in `duplicates` exactly when at least two files
with that fingerprint have completed, every entry holds at least two
members, and its first member is the first-discovered file with that
fingerprint (which is also the `image_hashes` entry). -/
theorem duplicates_entries_two_members_first_discovered
    (hashOf : String → Option String) (ps : List String) (h : String) :
    ((alookup (processAll hashOf ps initState).duplicates h).isSome ↔
       2 ≤ (filt hashOf ps h).length) ∧
    (∀ l, alookup (processAll hashOf ps initState).duplicates h = some l →
       2 ≤ l.length ∧ l.head? = (filt hashOf ps h).head? ∧
       l.head? = alookup (processAll hashOf ps initState).image_hashes h) := by
  obtain ⟨hI, hD, -⟩ := stateSpec_processAll hashOf ps
  constructor
  · rw [hD h]
    by_cases hlen : 2 ≤ (filt hashOf ps h).length
    · simp [hlen]
    · simp [hlen]
  · intro l hl
    rw [hD h] at hl
    by_cases hlen : 2 ≤ (filt hashOf ps h).length
    · rw [if_pos hlen] at hl
      cases hl
      exact ⟨hlen, rfl, (hI h).symm⟩
    · rw [if_neg hlen] at hl
      cases hl

/-- Witness for C10 at the concrete run: the `h1` entry holds two members
headed by the first-discovered `a.jpg`. -/
theorem duplicates_entries_witness :
    ((alookup (processAll hashOracle0 paths0 initState).duplicates
       "h1").isSome ↔ 2 ≤ (filt hashOracle0 paths0 "h1").length) ∧
    (∀ l, alookup (processAll hashOracle0 paths0 initState).duplicates
       "h1" = some l → 2 ≤ l.length ∧
       l.head? = (filt hashOracle0 paths0 "h1").head? ∧
       l.head? = alookup (processAll hashOracle0 paths0
         initState).image_hashes "h1") :=
  duplicates_entries_two_members_first_discovered hashOracle0 paths0 "h1"

/-- C6 (amended): a file whose fingerprint computation fails is excluded
from the duplicate index and does not abort the batch — the run proceeds on
the remaining files exactly as if the failed file were absent.  Nothing in
the detector state records the failure (see the counterexample: even
`processed_count` skips it; the source only prints the error). -/
theorem hash_failure_excluded_batch_continues
    (hashOf : String → Option String) (ps₁ ps₂ : List String)
    (p : String) (st : DetectorState) (hp : hashOf p = none) :
    processAll hashOf (ps₁ ++ p :: ps₂) st =
      processAll hashOf (ps₁ ++ ps₂) st := by
  induction ps₁ generalizing st with
  | nil =>
    simp only [List.nil_append, processAll, List.foldl_cons]
    rw [process_image_none hashOf st p hp]
  | cons q ps₁ ih =>
    simp only [List.cons_append, processAll, List.foldl_cons]
    exact ih (process_image hashOf st q)

/-- Witness for C6 (amended) at a concrete input. -/
theorem hash_failure_excluded_batch_continues_witness :
    processAll hashOracle0 (["a.jpg"] ++ "bad.jpg" :: ["b.jpg"]) initState =
      processAll hashOracle0 (["a.jpg"] ++ ["b.jpg"]) initState :=
  hash_failure_excluded_batch_continues hashOracle0 ["a.jpg"] ["b.jpg"]
    "bad.jpg" initState (by decide)

/-- Counterexample to C6 as stated: there is no error tally.  Processing
the unreadable `bad.jpg` leaves the entire detector state unchanged — no
counter (not even `processed_count`, which ends at 3 of 4 files) records
the failure, so the failed file is not "counted in an error tally". -/
theorem hash_failure_not_tallied_cex :
    process_image hashOracle0 (processAll hashOracle0
        ["a.jpg", "b.jpg", "c.jpg"] initState) "bad.jpg" =
      processAll hashOracle0 ["a.jpg", "b.jpg", "c.jpg"] initState ∧
    (processAll hashOracle0 paths0 initState).processed_count = 3 := by
  constructor
  · decide
  · decide

/-- C1 (code bug per the spec's own design note): the stored digest is a
function of only the first 8192 bytes, so two files that agree on that
prefix but differ at byte 8193 receive identical fingerprints — whatever
the digest function is — and are grouped as duplicates without any
full-content verification. -/
theorem partial_hash_only_grouping (md5 : List Nat → String) :
    calculate_file_hash md5 (some (List.replicate 8192 0 ++ [1])) =
      calculate_file_hash md5 (some (List.replicate 8192 0 ++ [2])) ∧
    (List.replicate 8192 (0 : Nat) ++ [1]) ≠ List.replicate 8192 0 ++ [2] := by
  constructor
  · have e1 : (List.replicate 8192 (0 : Nat) ++ [1]).take 8192 =
        List.replicate 8192 0 := by
      have h := List.take_left (List.replicate 8192 (0 : Nat)) [1]
      rwa [List.length_replicate] at h
    have e2 : (List.replicate 8192 (0 : Nat) ++ [2]).take 8192 =
        List.replicate 8192 0 := by
      have h := List.take_left (List.replicate 8192 (0 : Nat)) [2]
      rwa [List.length_replicate] at h
    show md5 _ = md5 _
    rw [e1, e2]
  · intro h
    have := List.append_cancel_left h
    simp at this

/-- C9 (amended): the scanner returns exactly the walked filenames that end
in one of the six literal extensions, each joined onto its root; matching
is by `endswith` against that fixed list, with no dedup or readability
check. -/
theorem find_image_files_mem (walk : List (String × List String))
    (p : String) :
    p ∈ find_image_files walk ↔
      ∃ rf ∈ walk, ∃ file ∈ rf.2,
        (image_extensions.any (fun ex => endswith file ex)) = true ∧
        p = joinPath rf.1 file := by
  simp only [find_image_files, List.mem_flatMap, List.mem_map,
    List.mem_filter]
  constructor
  · rintro ⟨rf, hrf, file, ⟨hfile, hmatch⟩, hjoin⟩
    exact ⟨rf, hrf, file, hfile, hmatch, hjoin.symm⟩
  · rintro ⟨rf, hrf, file, hfile, hmatch, hjoin⟩
    exact ⟨rf, hrf, file, ⟨hfile, hmatch⟩, hjoin.symm⟩

/-- Counterexample to C9 as stated: `x.Jpg` is rejected although the
case-insensitive contract matches it, and with the relative root `.`
(the program's default) the produced path is relative, not absolute. -/
theorem scanner_case_sensitivity_cex :
    find_image_files [(".", ["x.Jpg", "a.jpg"])] = ["./a.jpg"] ∧
    specMatchesCaseInsensitive "x.Jpg" = true := by
  constructor
  · decide
  · decide

theorem deleteOne_deleted_of_copy_fails (env : ResolutionEnv) (bd : String)
    (st : DeleteState) (f p : String)
    (hfail : ∀ q, env.copyOk p q = false) (hp : p ∉ st.deleted_files) :
    p ∉ (deleteOne env (some bd) st f).deleted_files := by
  by_cases hfp : f = p
  · subst hfp
    rw [deleteOne]
    simp only [hfail]
    simpa using hp
  · rw [deleteOne]
    by_cases hc : env.copyOk f
      (findBackupPath st.fs (joinPath bd (basename f))) = true
    · rw [if_pos hc]
      by_cases hr : env.removeOk f = true
      · rw [if_pos hr]
        simp only [List.mem_append, List.mem_singleton]
        rintro (h | h)
        · exact hp h
        · exact hfp h.symm
      · rw [if_neg hr]
        simpa using hp
    · rw [if_neg hc]
      simpa using hp

theorem delete_files_deleted_of_copy_fails (env : ResolutionEnv)
    (bd : String) (p : String) (hfail : ∀ q, env.copyOk p q = false) :
    ∀ (files : List String) (st : DeleteState), p ∉ st.deleted_files →
    p ∉ (delete_duplicate_files env files (some bd) st).deleted_files := by
  intro files
  induction files with
  | nil => intro st hp; simpa [delete_duplicate_files] using hp
  | cons f files ih =>
    intro st hp
    rw [delete_duplicate_files, List.foldl_cons]
    exact ih (deleteOne env (some bd) st f)
      (deleteOne_deleted_of_copy_fails env bd st f p hfail hp)

theorem delete_files_failed_append (env : ResolutionEnv)
    (bd : Option String) (files : List String) :
    ∀ st : DeleteState, ∃ t,
    (delete_duplicate_files env files bd st).failed_deletions =
      st.failed_deletions ++ t := by
  induction files with
  | nil => intro st; exact ⟨[], by simp [delete_duplicate_files]⟩
  | cons f files ih =>
    intro st
    rw [delete_duplicate_files, List.foldl_cons]
    obtain ⟨t, ht⟩ := ih (deleteOne env bd st f)
    rw [delete_duplicate_files] at ht
    cases bd with
    | none =>
      rw [deleteOne] at ht ⊢
      by_cases hr : env.removeOk f = true
      · rw [if_pos hr] at ht ⊢
        exact ⟨t, by rw [ht]⟩
      · rw [if_neg hr] at ht ⊢
        exact ⟨(f, "remove error") :: t, by rw [ht, List.append_assoc]; rfl⟩
    | some bd =>
      rw [deleteOne] at ht ⊢
      by_cases hc : env.copyOk f
        (findBackupPath st.fs (joinPath bd (basename f))) = true
      · rw [if_pos hc] at ht ⊢
        by_cases hr : env.removeOk f = true
        · rw [if_pos hr] at ht ⊢
          exact ⟨t, by rw [ht]⟩
        · rw [if_neg hr] at ht ⊢
          exact ⟨(f, "remove error") :: t, by rw [ht, List.append_assoc]; rfl⟩
      · rw [if_neg hc] at ht ⊢
        exact ⟨(f, "copy error") :: t, by rw [ht, List.append_assoc]; rfl⟩

/-- C2: with a backup directory configured, a file whose backup copy fails
(here: fails for every possible target path) is never deleted, and the
failure is recorded in `failed_deletions`. -/
theorem no_delete_without_backup (env : ResolutionEnv) (bd : String)
    (files : List String) (p : String) (fs0 : List String)
    (hmem : p ∈ files) (hfail : ∀ q, env.copyOk p q = false) :
    p ∉ (delete_duplicate_files env files (some bd)
          ⟨fs0, [], []⟩).deleted_files ∧
    p ∈ (delete_duplicate_files env files (some bd)
          ⟨fs0, [], []⟩).failed_deletions.map Prod.fst := by
  constructor
  · exact delete_files_deleted_of_copy_fails env bd p hfail files
      ⟨fs0, [], []⟩ (by simp)
  · obtain ⟨l1, l2, rfl⟩ := List.append_of_mem hmem
    rw [delete_duplicate_files, List.foldl_append, List.foldl_cons]
    have hstep : ∀ st : DeleteState, p ∈ (deleteOne env (some bd) st
        p).failed_deletions.map Prod.fst := by
      intro st
      rw [deleteOne]
      simp [hfail]
    set st1 := List.foldl (deleteOne env (some bd)) ⟨fs0, [], []⟩ l1 with hst1
    obtain ⟨t, ht⟩ := delete_files_failed_append env (some bd) l2
      (deleteOne env (some bd) st1 p)
    rw [delete_duplicate_files] at ht
    rw [ht]
    simp only [List.map_append, List.mem_append]
    exact Or.inl (hstep st1)

/-- Witness for C2 at a concrete run: backups fail for everything, so
`a.jpg` survives and is reported failed. -/
theorem no_delete_without_backup_witness :
    "a.jpg" ∉ (delete_duplicate_files envCopyFail ["a.jpg"]
      (some "backup") ⟨[], [], []⟩).deleted_files ∧
    "a.jpg" ∈ (delete_duplicate_files envCopyFail ["a.jpg"]
      (some "backup") ⟨[], [], []⟩).failed_deletions.map Prod.fst :=
  no_delete_without_backup envCopyFail "backup" ["a.jpg"] "a.jpg" []
    (by decide) (fun q => rfl)

theorem delete_files_counts (env : ResolutionEnv) (bd : Option String) :
    ∀ (files : List String) (st : DeleteState),
    (delete_duplicate_files env files bd st).deleted_files.length +
      (delete_duplicate_files env files bd st).failed_deletions.length =
    st.deleted_files.length + st.failed_deletions.length + files.length := by
  intro files
  induction files with
  | nil => intro st; simp [delete_duplicate_files]
  | cons f files ih =>
    intro st
    rw [delete_duplicate_files, List.foldl_cons]
    have hstep : (deleteOne env bd st f).deleted_files.length +
        (deleteOne env bd st f).failed_deletions.length =
        st.deleted_files.length + st.failed_deletions.length + 1 := by
      cases bd with
      | none =>
        rw [deleteOne]
        by_cases hr : env.removeOk f = true
        · rw [if_pos hr]; simp; omega
        · rw [if_neg hr]; simp; omega
      | some bd =>
        rw [deleteOne]
        by_cases hc : env.copyOk f
          (findBackupPath st.fs (joinPath bd (basename f))) = true
        · rw [if_pos hc]
          by_cases hr : env.removeOk f = true
          · rw [if_pos hr]; simp; omega
          · rw [if_neg hr]; simp; omega
        · rw [if_neg hc]; simp; omega
    have h2 := ih (deleteOne env bd st f)
    rw [delete_duplicate_files] at h2
    simp only [List.length_cons]
    omega

theorem filterMap_get_file_info_paths_sublist
    (statOf : String → Option (Int × Int)) (g : List String) :
    ((g.filterMap (get_file_info statOf)).map FileInfo.path).Sublist g := by
  induction g with
  | nil => simp
  | cons p g ih =>
    rw [List.filterMap_cons]
    cases hs : statOf p with
    | none =>
      rw [get_file_info, hs]
      exact ih.cons p
    | some sm =>
      rw [get_file_info, hs]
      simpa using ih.cons₂ p

theorem filter_ne_path_length (infos : List FileInfo) (keep : FileInfo)
    (hmem : keep ∈ infos) (hnd : (infos.map FileInfo.path).Nodup) :
    (infos.filter (fun i => i.path ≠ keep.path)).length =
      infos.length - 1 := by
  obtain ⟨l1, l2, rfl⟩ := List.append_of_mem hmem
  rw [List.map_append, List.map_cons] at hnd
  have h1 : keep.path ∉ l1.map FileInfo.path := by
    intro hk
    have := (List.nodup_append.mp hnd).2.2
    exact this hk (List.mem_cons_self _ _)
  have h2 : keep.path ∉ l2.map FileInfo.path := by
    have := (List.nodup_append.mp hnd).2.1
    rw [List.nodup_cons] at this
    exact this.1
  rw [List.filter_append, List.filter_cons]
  have e1 : l1.filter (fun i => i.path ≠ keep.path) = l1 := by
    apply List.filter_eq_self.mpr
    intro a ha
    simp only [ne_eq, decide_not, Bool.not_eq_eq_eq_not, Bool.not_true,
      decide_eq_false_iff_not]
    intro hap
    exact h1 (hap ▸ List.mem_map_of_mem FileInfo.path ha)
  have e2 : l2.filter (fun i => i.path ≠ keep.path) = l2 := by
    apply List.filter_eq_self.mpr
    intro a ha
    simp only [ne_eq, decide_not, Bool.not_eq_eq_eq_not, Bool.not_true,
      decide_eq_false_iff_not]
    intro hap
    exact h2 (hap ▸ List.mem_map_of_mem FileInfo.path ha)
  simp only [e1, e2]
  simp only [ne_eq, not_true_eq_false, decide_not, List.length_append,
    List.length_cons]
  simp

theorem pyMax_spec (key : FileInfo → Int) :
    ∀ (t : List FileInfo) (x : FileInfo),
    firstArgmaxSpec key (x :: t) (pyMax key x t) := by
  intro t
  induction t with
  | nil => exact fun x => ⟨[], [], rfl, by simp, by simp⟩
  | cons a t ih =>
    intro x
    rw [pyMax]
    by_cases hc : key x < key a
    · rw [if_pos hc]
      obtain ⟨l1, l2, hdec, hlt, hle⟩ := ih a
      cases l1 with
      | nil =>
        simp only [List.nil_append, List.cons.injEq] at hdec
        obtain ⟨ha, htl⟩ := hdec
        refine ⟨[x], l2, ?_, ?_, hle⟩
        · rw [List.singleton_append, ← ha, ← htl]
        · intro b hb
          rw [List.mem_singleton] at hb
          subst hb
          rw [← ha]
          exact hc
      | cons c l1' =>
        simp only [List.cons_append, List.cons.injEq] at hdec
        obtain ⟨ha, htl⟩ := hdec
        have har : key a < key (pyMax key a t) := by
          apply hlt
          rw [← ha]
          exact List.mem_cons_self _ _
        refine ⟨x :: a :: l1', l2, ?_, ?_, hle⟩
        · rw [List.cons_append, List.cons_append, ← htl]
        · intro b hb
          rcases List.mem_cons.mp hb with hbx | hb'
          · subst hbx; exact lt_trans hc har
          · rcases List.mem_cons.mp hb' with hba | hbl
            · subst hba; exact har
            · exact hlt b (List.mem_cons_of_mem c hbl)
    · rw [if_neg hc]
      obtain ⟨l1, l2, hdec, hlt, hle⟩ := ih x
      cases l1 with
      | nil =>
        simp only [List.nil_append, List.cons.injEq] at hdec
        obtain ⟨hx, htl⟩ := hdec
        refine ⟨[], a :: l2, ?_, by simp, ?_⟩
        · rw [List.nil_append, ← hx, ← htl]
        · intro b hb
          rcases List.mem_cons.mp hb with hba | hbl
          · subst hba
            rw [← hx]
            exact le_of_not_lt hc
          · exact hle b hbl
      | cons c l1' =>
        simp only [List.cons_append, List.cons.injEq] at hdec
        obtain ⟨hx, htl⟩ := hdec
        have hxr : key x < key (pyMax key x t) := by
          apply hlt
          rw [← hx]
          exact List.mem_cons_self _ _
        refine ⟨x :: a :: l1', l2, ?_, ?_, hle⟩
        · rw [List.cons_append, List.cons_append, ← htl]
        · intro b hb
          rcases List.mem_cons.mp hb with hbx | hb'
          · subst hbx; exact hxr
          · rcases List.mem_cons.mp hb' with hba | hbl
            · subst hba; exact lt_of_le_of_lt (le_of_not_lt hc) hxr
            · exact hlt b (List.mem_cons_of_mem c hbl)

theorem pyMin_spec (key : FileInfo → Int) :
    ∀ (t : List FileInfo) (x : FileInfo),
    firstArgminSpec key (x :: t) (pyMin key x t) := by
  intro t
  induction t with
  | nil => exact fun x => ⟨[], [], rfl, by simp, by simp⟩
  | cons a t ih =>
    intro x
    rw [pyMin]
    by_cases hc : key a < key x
    · rw [if_pos hc]
      obtain ⟨l1, l2, hdec, hlt, hle⟩ := ih a
      cases l1 with
      | nil =>
        simp only [List.nil_append, List.cons.injEq] at hdec
        obtain ⟨ha, htl⟩ := hdec
        refine ⟨[x], l2, ?_, ?_, hle⟩
        · rw [List.singleton_append, ← ha, ← htl]
        · intro b hb
          rw [List.mem_singleton] at hb
          subst hb
          rw [← ha]
          exact hc
      | cons c l1' =>
        simp only [List.cons_append, List.cons.injEq] at hdec
        obtain ⟨ha, htl⟩ := hdec
        have har : key (pyMin key a t) < key a := by
          apply hlt
          rw [← ha]
          exact List.mem_cons_self _ _
        refine ⟨x :: a :: l1', l2, ?_, ?_, hle⟩
        · rw [List.cons_append, List.cons_append, ← htl]
        · intro b hb
          rcases List.mem_cons.mp hb with hbx | hb'
          · subst hbx; exact lt_trans har hc
          · rcases List.mem_cons.mp hb' with hba | hbl
            · subst hba; exact har
            · exact hlt b (List.mem_cons_of_mem c hbl)
    · rw [if_neg hc]
      obtain ⟨l1, l2, hdec, hlt, hle⟩ := ih x
      cases l1 with
      | nil =>
        simp only [List.nil_append, List.cons.injEq] at hdec
        obtain ⟨hx, htl⟩ := hdec
        refine ⟨[], a :: l2, ?_, by simp, ?_⟩
        · rw [List.nil_append, ← hx, ← htl]
        · intro b hb
          rcases List.mem_cons.mp hb with hba | hbl
          · subst hba
            rw [← hx]
            exact le_of_not_lt hc
          · exact hle b hbl
      | cons c l1' =>
        simp only [List.cons_append, List.cons.injEq] at hdec
        obtain ⟨hx, htl⟩ := hdec
        have hxr : key (pyMin key x t) < key x := by
          apply hlt
          rw [← hx]
          exact List.mem_cons_self _ _
        refine ⟨x :: a :: l1', l2, ?_, ?_, hle⟩
        · rw [List.cons_append, List.cons_append, ← htl]
        · intro b hb
          rcases List.mem_cons.mp hb with hbx | hb'
          · subst hbx; exact hxr
          · rcases List.mem_cons.mp hb' with hba | hbl
            · subst hba; exact lt_of_lt_of_le hxr (le_of_not_lt hc)
            · exact hlt b (List.mem_cons_of_mem c hbl)

theorem firstArgmaxSpec_mem {key : FileInfo → Int} {l : List FileInfo}
    {r : FileInfo} (h : firstArgmaxSpec key l r) : r ∈ l := by
  obtain ⟨l1, l2, rfl, -, -⟩ := h
  exact List.mem_append_right l1 (List.mem_cons_self _ _)

theorem firstArgminSpec_mem {key : FileInfo → Int} {l : List FileInfo}
    {r : FileInfo} (h : firstArgminSpec key l r) : r ∈ l := by
  obtain ⟨l1, l2, rfl, -, -⟩ := h
  exact List.mem_append_right l1 (List.mem_cons_self _ _)

theorem chooseForGroup_inversion (statOf : String → Option (Int × Int))
    (chooser : List FileInfo → FileInfo) (strategy : Strategy)
    (file_list : List String) (keep : FileInfo) (dels : List String)
    (h : chooseForGroup statOf chooser strategy file_list =
      some (keep, dels)) :
    ∃ x xs, file_list.filterMap (get_file_info statOf) = x :: xs ∧
      keep = keeperFor chooser strategy x xs ∧
      dels = ((x :: xs).filter (fun i => i.path ≠ keep.path)).map
        (fun i => i.path) := by
  rw [chooseForGroup] at h
  by_cases hl : file_list.length ≤ 1
  · rw [if_pos hl] at h
    cases h
  · rw [if_neg hl] at h
    cases hfm : file_list.filterMap (get_file_info statOf) with
    | nil =>
      rw [hfm] at h
      cases h
    | cons x xs =>
      rw [hfm] at h
      simp only [Option.some.injEq, Prod.mk.injEq] at h
      obtain ⟨hk, hd⟩ := h
      exact ⟨x, xs, rfl, hk.symm, by rw [← hk]; exact hd.symm⟩

/-- C3 (amended): for every resolved group, `kept + deleted + failed`
equals the number of group members whose metadata could be read (stat
succeeded) — not the total member count: members whose `os.stat` fails are
silently dropped from the accounting. -/
theorem conservation_over_statted_members
    (statOf : String → Option (Int × Int))
    (chooser : List FileInfo → FileInfo) (strategy : Strategy)
    (g : List String) (env : ResolutionEnv) (bd : Option String)
    (fs0 : List String) (keep : FileInfo) (dels : List String)
    (hnd : g.Nodup) (hch : ∀ x xs, chooser (x :: xs) ∈ x :: xs)
    (hsome : chooseForGroup statOf chooser strategy g = some (keep, dels)) :
    1 + (delete_duplicate_files env dels bd
          ⟨fs0, [], []⟩).deleted_files.length
      + (delete_duplicate_files env dels bd
          ⟨fs0, [], []⟩).failed_deletions.length
    = (g.filterMap (get_file_info statOf)).length := by
  obtain ⟨x, xs, hfm, hk, hd⟩ :=
    chooseForGroup_inversion statOf chooser strategy g keep dels hsome
  have hmem : keep ∈ x :: xs := by
    rw [hk]
    cases strategy with
    | newest => exact firstArgmaxSpec_mem (pyMax_spec _ xs x)
    | oldest => exact firstArgminSpec_mem (pyMin_spec _ xs x)
    | largest => exact firstArgmaxSpec_mem (pyMax_spec _ xs x)
    | smallest => exact firstArgminSpec_mem (pyMin_spec _ xs x)
    | manual => exact hch x xs
  have hnd' : ((x :: xs).map FileInfo.path).Nodup := by
    have hs := filterMap_get_file_info_paths_sublist statOf g
    rw [hfm] at hs
    exact hs.nodup hnd
  have hflen := filter_ne_path_length (x :: xs) keep hmem hnd'
  have hdlen : dels.length = (x :: xs).length - 1 := by
    rw [hd, List.length_map, hflen]
  have hcnt := delete_files_counts env bd dels ⟨fs0, [], []⟩
  have hz : (⟨fs0, [], []⟩ : DeleteState).deleted_files.length = 0 := rfl
  have hz' : (⟨fs0, [], []⟩ : DeleteState).failed_deletions.length = 0 := rfl
  rw [hz, hz'] at hcnt
  rw [hfm]
  simp only [List.length_cons] at hdlen ⊢
  omega

/-- Counterexample to C3 as stated: a group of two members where one
member's `os.stat` raises resolves to `kept + deleted + failed = 1`, not
the group size 2 — the unstattable member vanishes from the accounting. -/
theorem conservation_cex :
    chooseForGroup statOracleBad chooser0 Strategy.newest
        ["a.jpg", "b.jpg"] = some (⟨"a.jpg", 1, 5⟩, []) ∧
    1 + (delete_duplicate_files envAll [] none
          ⟨[], [], []⟩).deleted_files.length
      + (delete_duplicate_files envAll [] none
          ⟨[], [], []⟩).failed_deletions.length = 1 ∧
    (["a.jpg", "b.jpg"] : List String).length = 2 := by
  refine ⟨by decide, by decide, by decide⟩

/-- Witness for C3 (amended) at a fully-stattable concrete group. -/
theorem conservation_over_statted_members_witness :
    1 + (delete_duplicate_files envAll ["b.jpg"] none
          ⟨[], [], []⟩).deleted_files.length
      + (delete_duplicate_files envAll ["b.jpg"] none
          ⟨[], [], []⟩).failed_deletions.length
    = ((["a.jpg", "b.jpg"] : List String).filterMap
        (get_file_info statOracle0)).length :=
  conservation_over_statted_members statOracle0 chooser0 Strategy.newest
    ["a.jpg", "b.jpg"] envAll none [] ⟨"a.jpg", 10, 100⟩ ["b.jpg"]
    (by decide) (fun x xs => by simp [chooser0]) (by decide)

theorem firstExtremal_unique_aux (key : FileInfo → Int) :
    ∀ (l1 l1' l2 l2' : List FileInfo) (r r' : FileInfo),
    l1 ++ r :: l2 = l1' ++ r' :: l2' →
    (∀ a ∈ l1, key a < key r) → (∀ a ∈ l2, key a ≤ key r) →
    (∀ a ∈ l1', key a < key r') → (∀ a ∈ l2', key a ≤ key r') →
    r = r' := by
  intro l1
  induction l1 with
  | nil =>
    intro l1' l2 l2' r r' heq h1 h2 h1' h2'
    cases l1' with
    | nil =>
      simp only [List.nil_append, List.cons.injEq] at heq
      exact heq.1
    | cons c m =>
      simp only [List.nil_append, List.cons_append, List.cons.injEq] at heq
      obtain ⟨hc, htl⟩ := heq
      have hr'le : key r' ≤ key r := by
        apply h2
        rw [htl]
        exact List.mem_append_right m (List.mem_cons_self _ _)
      have hrlt : key r < key r' := by
        apply h1'
        rw [hc]
        exact List.mem_cons_self _ _
      linarith
  | cons c m ih =>
    intro l1' l2 l2' r r' heq h1 h2 h1' h2'
    cases l1' with
    | nil =>
      simp only [List.cons_append, List.nil_append, List.cons.injEq] at heq
      obtain ⟨hc, htl⟩ := heq
      have hrle : key r ≤ key r' := by
        apply h2'
        rw [← htl]
        exact List.mem_append_right m (List.mem_cons_self _ _)
      have hr'lt : key r' < key r := by
        apply h1
        rw [← hc]
        exact List.mem_cons_self _ _
      linarith
    | cons c' m' =>
      simp only [List.cons_append, List.cons.injEq] at heq
      exact ih m' l2 l2' r r' heq.2
        (fun a ha => h1 a (List.mem_cons_of_mem c ha)) h2
        (fun a ha => h1' a (List.mem_cons_of_mem c' ha)) h2'

theorem firstArgmaxSpec_unique {key : FileInfo → Int} {l : List FileInfo}
    {r r' : FileInfo} (h : firstArgmaxSpec key l r)
    (h' : firstArgmaxSpec key l r') : r = r' := by
  obtain ⟨l1, l2, hdec, ha, hb⟩ := h
  obtain ⟨l1', l2', hdec', ha', hb'⟩ := h'
  exact firstExtremal_unique_aux key l1 l1' l2 l2' r r'
    (hdec ▸ hdec') ha hb ha' hb'

theorem firstArgminSpec_unique {key : FileInfo → Int} {l : List FileInfo}
    {r r' : FileInfo} (h : firstArgminSpec key l r)
    (h' : firstArgminSpec key l r') : r = r' := by
  obtain ⟨l1, l2, hdec, ha, hb⟩ := h
  obtain ⟨l1', l2', hdec', ha', hb'⟩ := h'
  refine firstExtremal_unique_aux (fun i => -(key i)) l1 l1' l2 l2' r r'
    (hdec ▸ hdec') ?_ ?_ ?_ ?_
  · intro a haa
    simpa using ha a haa
  · intro a haa
    simpa using hb a haa
  · intro a haa
    simpa using ha' a haa
  · intro a haa
    simpa using hb' a haa

/-- C5 (amended): for each of the four automatic policies the selector
returns exactly one keeper: the member that is strictly more extreme
(newer/older/larger/smaller) than every member listed before it and at
least as extreme as every member after it — i.e. ties are broken by
earliest position in the group's member list, not by lexicographic path
order — and that keeper is the unique member with this property, so
repeated invocations agree. -/
theorem retention_keeper_first_extremal
    (statOf : String → Option (Int × Int))
    (chooser : List FileInfo → FileInfo) (g : List String)
    (keep : FileInfo) (dels : List String) :
    (chooseForGroup statOf chooser Strategy.newest g = some (keep, dels) →
      firstArgmaxSpec (fun i => i.mtime)
        (g.filterMap (get_file_info statOf)) keep ∧
      ∀ r', firstArgmaxSpec (fun i => i.mtime)
        (g.filterMap (get_file_info statOf)) r' → r' = keep) ∧
    (chooseForGroup statOf chooser Strategy.oldest g = some (keep, dels) →
      firstArgminSpec (fun i => i.mtime)
        (g.filterMap (get_file_info statOf)) keep ∧
      ∀ r', firstArgminSpec (fun i => i.mtime)
        (g.filterMap (get_file_info statOf)) r' → r' = keep) ∧
    (chooseForGroup statOf chooser Strategy.largest g = some (keep, dels) →
      firstArgmaxSpec (fun i => i.size)
        (g.filterMap (get_file_info statOf)) keep ∧
      ∀ r', firstArgmaxSpec (fun i => i.size)
        (g.filterMap (get_file_info statOf)) r' → r' = keep) ∧
    (chooseForGroup statOf chooser Strategy.smallest g = some (keep, dels) →
      firstArgminSpec (fun i => i.size)
        (g.filterMap (get_file_info statOf)) keep ∧
      ∀ r', firstArgminSpec (fun i => i.size)
        (g.filterMap (get_file_info statOf)) r' → r' = keep) := by
  refine ⟨?_, ?_, ?_, ?_⟩
  · intro h
    obtain ⟨x, xs, hfm, hk, -⟩ :=
      chooseForGroup_inversion statOf chooser Strategy.newest g keep dels h
    rw [hfm]
    have hspec := pyMax_spec (fun i => i.mtime) xs x
    rw [hk]
    exact ⟨hspec, fun r' h' => firstArgmaxSpec_unique h' hspec⟩
  · intro h
    obtain ⟨x, xs, hfm, hk, -⟩ :=
      chooseForGroup_inversion statOf chooser Strategy.oldest g keep dels h
    rw [hfm]
    have hspec := pyMin_spec (fun i => i.mtime) xs x
    rw [hk]
    exact ⟨hspec, fun r' h' => firstArgminSpec_unique h' hspec⟩
  · intro h
    obtain ⟨x, xs, hfm, hk, -⟩ :=
      chooseForGroup_inversion statOf chooser Strategy.largest g keep dels h
    rw [hfm]
    have hspec := pyMax_spec (fun i => i.size) xs x
    rw [hk]
    exact ⟨hspec, fun r' h' => firstArgmaxSpec_unique h' hspec⟩
  · intro h
    obtain ⟨x, xs, hfm, hk, -⟩ :=
      chooseForGroup_inversion statOf chooser Strategy.smallest g keep dels h
    rw [hfm]
    have hspec := pyMin_spec (fun i => i.size) xs x
    rw [hk]
    exact ⟨hspec, fun r' h' => firstArgminSpec_unique h' hspec⟩

/-- Witness for C5 (amended): in the concrete group, `a.jpg` (latest
mtime) is the unique first-maximal keeper under `Newest`. -/
theorem retention_keeper_first_extremal_witness :
    firstArgmaxSpec (fun i => i.mtime)
      ((["a.jpg", "b.jpg"] : List String).filterMap
        (get_file_info statOracle0)) ⟨"a.jpg", 10, 100⟩ ∧
    ∀ r', firstArgmaxSpec (fun i => i.mtime)
      ((["a.jpg", "b.jpg"] : List String).filterMap
        (get_file_info statOracle0)) r' → r' = ⟨"a.jpg", 10, 100⟩ :=
  (retention_keeper_first_extremal statOracle0 chooser0 ["a.jpg", "b.jpg"]
    ⟨"a.jpg", 10, 100⟩ ["b.jpg"]).1 (by decide)

/-- Counterexample to C5 as stated: with equal mtimes the code keeps the
member listed first (`b.jpg`), while the claimed lexicographic-path
tie-break selects `a.jpg`. -/
theorem retention_tiebreak_cex :
    chooseForGroup statOracleTie chooser0 Strategy.newest
        ["b.jpg", "a.jpg"] = some (⟨"b.jpg", 1, 5⟩, ["a.jpg"]) ∧
    specKeeperNewest ⟨"b.jpg", 1, 5⟩ [⟨"a.jpg", 1, 5⟩] = ⟨"a.jpg", 1, 5⟩ ∧
    (⟨"b.jpg", 1, 5⟩ : FileInfo) ≠ ⟨"a.jpg", 1, 5⟩ := by
  refine ⟨by decide, by decide, by decide⟩

theorem charVal_digitChar (m : Nat) (hm : m < 10) :
    charVal (Nat.digitChar m) = m := by
  interval_cases m <;> decide

theorem digitsVal_toDigitsCore :
    ∀ (fuel n : Nat) (ds : List Char), n < fuel →
    digitsVal (Nat.toDigitsCore 10 fuel n ds) =
      n * 10 ^ ds.length + digitsVal ds := by
  intro fuel
  induction fuel with
  | zero => intro n ds h; omega
  | succ fuel ih =>
    intro n ds h
    simp only [Nat.toDigitsCore]
    by_cases hdiv : n / 10 = 0
    · rw [if_pos hdiv]
      rw [digitsVal, charVal_digitChar (n % 10) (Nat.mod_lt n (by omega))]
      have hn : n = n % 10 := by omega
      rw [← hn]
    · rw [if_neg hdiv]
      have hge : 10 ≤ n := by
        by_contra hlt
        exact hdiv (Nat.div_eq_of_lt (by omega))
      have hfuel : n / 10 < fuel := by
        have h1 : n / 10 < n := Nat.div_lt_self (by omega) (by omega)
        omega
      rw [ih (n / 10) (Nat.digitChar (n % 10) :: ds) hfuel]
      rw [digitsVal, charVal_digitChar (n % 10) (Nat.mod_lt n (by omega))]
      simp only [List.length_cons, pow_succ]
      have hnm : 10 * (n / 10) + n % 10 = n := Nat.div_add_mod n 10
      have hexp : n * 10 ^ ds.length =
          (10 * (n / 10) + n % 10) * 10 ^ ds.length := by rw [hnm]
      rw [hexp]
      ring

theorem digitsVal_toDigits (n : Nat) :
    digitsVal (Nat.toDigits 10 n) = n := by
  rw [Nat.toDigits]
  rw [digitsVal_toDigitsCore (n + 1) n [] (Nat.lt_succ_self n)]
  simp [digitsVal]

theorem repr_data_toDigits (n : Nat) :
    (Nat.repr n).data = Nat.toDigits 10 n := rfl

theorem repr_injective : Function.Injective Nat.repr := by
  intro n m h
  have hd : Nat.toDigits 10 n = Nat.toDigits 10 m := by
    rw [← repr_data_toDigits, ← repr_data_toDigits, h]
  have := digitsVal_toDigits n
  rw [hd, digitsVal_toDigits] at this
  exact this.symm

theorem toDigitsCore_length_mono (b : Nat) :
    ∀ (fuel n : Nat) (ds : List Char),
    ds.length ≤ (Nat.toDigitsCore b fuel n ds).length := by
  intro fuel
  induction fuel with
  | zero => intro n ds; rw [Nat.toDigitsCore]
  | succ fuel ih =>
    intro n ds
    simp only [Nat.toDigitsCore]
    by_cases hdiv : n / b = 0
    · rw [if_pos hdiv]
      simp
    · rw [if_neg hdiv]
      have := ih (n / b) (Nat.digitChar (n % b) :: ds)
      simp only [List.length_cons] at this
      omega

theorem repr_data_length_pos (n : Nat) : 1 ≤ (Nat.repr n).data.length := by
  rw [repr_data_toDigits, Nat.toDigits]
  simp only [Nat.toDigitsCore]
  by_cases hdiv : n / 10 = 0
  · rw [if_pos hdiv]
    simp
  · rw [if_neg hdiv]
    have := toDigitsCore_length_mono 10 n (n / 10)
      [Nat.digitChar (n % 10)]
    simpa using this

theorem breakLast_eq (c : Char) :
    ∀ (cs pre suf : List Char), breakLast c cs = some (pre, suf) →
    cs = pre ++ c :: suf := by
  intro cs
  induction cs with
  | nil => intro pre suf h; cases h
  | cons a cs ih =>
    intro pre suf h
    rw [breakLast] at h
    cases hb : breakLast c cs with
    | some pq =>
      rw [hb] at h
      simp only [Option.some.injEq, Prod.mk.injEq] at h
      obtain ⟨h1, h2⟩ := h
      rw [← h1, ← h2]
      have := ih pq.1 pq.2 (by rw [hb])
      rw [List.cons_append]
      rw [← this]
    | none =>
      rw [hb] at h
      by_cases hac : a = c
      · rw [if_pos hac] at h
        simp only [Option.some.injEq, Prod.mk.injEq] at h
        obtain ⟨h1, h2⟩ := h
        rw [← h1, ← h2, hac]
        rfl
      · rw [if_neg hac] at h
        cases h

theorem splitextAux_data (d b : List Char) :
    (splitextAux d b).1.data ++ (splitextAux d b).2.data = d ++ b := by
  cases hb : breakLast '.' b with
  | none =>
    simp only [splitextAux, hb]
    simp [List.asString]
  | some ne =>
    simp only [splitextAux, hb]
    by_cases hall : ne.1.all (fun ch => ch = '.') = true
    · rw [if_pos hall]
      simp [List.asString]
    · rw [if_neg hall]
      simp only [List.asString]
      have := breakLast_eq '.' b ne.1 ne.2 hb
      rw [this, ← List.append_assoc]

theorem splitext_data (p : String) :
    (splitext p).1.data ++ (splitext p).2.data = p.data := by
  cases hb : breakLast '/' p.data with
  | none =>
    simp only [splitext, hb]
    exact splitextAux_data [] p.data
  | some pq =>
    simp only [splitext, hb]
    rw [splitextAux_data (pq.1 ++ ['/']) pq.2]
    rw [breakLast_eq '/' p.data pq.1 pq.2 hb]
    simp

theorem candidate_data_succ (base : String) (i : Nat) :
    (candidate base (i + 1)).data =
      (splitext base).1.data ++ '_' ::
        ((Nat.repr (i + 1)).data ++ (splitext base).2.data) := by
  rw [candidate]
  rw [String.data_append, String.data_append, String.data_append]
  simp

theorem candidate_injective (base : String) :
    Function.Injective (candidate base) := by
  intro i j h
  match i, j with
  | 0, 0 => rfl
  | 0, j + 1 =>
    exfalso
    have hd : (candidate base 0).data = (candidate base (j + 1)).data := by
      rw [h]
    rw [candidate_data_succ] at hd
    have hbase : (candidate base 0).data =
        (splitext base).1.data ++ (splitext base).2.data := by
      rw [candidate, splitext_data]
    rw [hbase] at hd
    have := List.append_cancel_left hd
    have hlen := congrArg List.length this
    simp only [List.length_cons, List.length_append] at hlen
    have := repr_data_length_pos (j + 1)
    omega
  | i + 1, 0 =>
    exfalso
    have hd : (candidate base (i + 1)).data = (candidate base 0).data := by
      rw [h]
    rw [candidate_data_succ] at hd
    have hbase : (candidate base 0).data =
        (splitext base).1.data ++ (splitext base).2.data := by
      rw [candidate, splitext_data]
    rw [hbase] at hd
    have := List.append_cancel_left hd
    have hlen := congrArg List.length this.symm
    simp only [List.length_cons, List.length_append] at hlen
    have := repr_data_length_pos (i + 1)
    omega
  | i + 1, j + 1 =>
    have hd : (candidate base (i + 1)).data =
        (candidate base (j + 1)).data := by rw [h]
    rw [candidate_data_succ, candidate_data_succ] at hd
    have h1 := List.append_cancel_left hd
    simp only [List.cons.injEq, true_and] at h1
    have h2 := List.append_cancel_right h1
    have h3 : Nat.repr (i + 1) = Nat.repr (j + 1) := by
      have hi : Nat.repr (i + 1) = ⟨(Nat.repr (i + 1)).data⟩ := rfl
      have hj : Nat.repr (j + 1) = ⟨(Nat.repr (j + 1)).data⟩ := rfl
      rw [hi, hj, h2]
    have := repr_injective h3
    omega

theorem candidate_free_exists (fs : List String) (base : String) :
    ∃ j, j ≤ fs.length ∧ candidate base j ∉ fs := by
  by_contra hcon
  push_neg at hcon
  have hsub : Finset.image (candidate base)
      (Finset.range (fs.length + 1)) ⊆ fs.toFinset := by
    intro s hs
    rw [Finset.mem_image] at hs
    obtain ⟨j, hj, rfl⟩ := hs
    rw [Finset.mem_range] at hj
    rw [List.mem_toFinset]
    exact hcon j (by omega)
  have hcard : (Finset.image (candidate base)
      (Finset.range (fs.length + 1))).card = fs.length + 1 := by
    rw [Finset.card_image_of_injective _ (candidate_injective base)]
    simp
  have hle := Finset.card_le_card hsub
  have := fs.toFinset_card_le
  omega

theorem searchFree_spec (fs : List String) (base : String) :
    ∀ (fuel i : Nat),
    (∃ j, i ≤ j ∧ j < i + fuel ∧ candidate base j ∉ fs) →
    i ≤ searchFree fs base i fuel ∧
    candidate base (searchFree fs base i fuel) ∉ fs ∧
    ∀ j, i ≤ j → j < searchFree fs base i fuel → candidate base j ∈ fs := by
  intro fuel
  induction fuel with
  | zero =>
    intro i h
    obtain ⟨j, h1, h2, -⟩ := h
    omega
  | succ fuel ih =>
    intro i h
    rw [searchFree]
    by_cases hmem : candidate base i ∈ fs
    · rw [if_pos hmem]
      have hex : ∃ j, i + 1 ≤ j ∧ j < (i + 1) + fuel ∧
          candidate base j ∉ fs := by
        obtain ⟨j, h1, h2, h3⟩ := h
        refine ⟨j, ?_, by omega, h3⟩
        rcases Nat.eq_or_lt_of_le h1 with heq | hlt
        · exact absurd hmem (heq ▸ h3)
        · omega
      obtain ⟨ha, hb, hc⟩ := ih (i + 1) hex
      refine ⟨by omega, hb, ?_⟩
      intro j hij hjr
      rcases Nat.eq_or_lt_of_le hij with heq | hlt
      · rw [← heq]
        exact hmem
      · exact hc j (by omega) hjr
    · rw [if_neg hmem]
      exact ⟨le_refl i, hmem, fun j h1 h2 => absurd h2 (by omega)⟩

/-- C8: the backup-name search returns a path that does not collide with
any existing path; it is `candidate base i` for the least free suffix
index `i` (so the `counter` search is monotonic: every smaller index was
tried and found occupied), and that index — hence the terminating loop's
iteration count — is at most the number of existing files. -/
theorem backup_suffix_search_monotone_terminates (fs : List String)
    (base : String) :
    findBackupPath fs base ∉ fs ∧
    ∃ i, i ≤ fs.length ∧ findBackupPath fs base = candidate base i ∧
      ∀ j, j < i → candidate base j ∈ fs := by
  obtain ⟨j, hj, hfree⟩ := candidate_free_exists fs base
  have hex : ∃ j', 0 ≤ j' ∧ j' < 0 + (fs.length + 1) ∧
      candidate base j' ∉ fs := ⟨j, by omega, by omega, hfree⟩
  obtain ⟨-, hfree', hleast⟩ :=
    searchFree_spec fs base (fs.length + 1) 0 hex
  refine ⟨hfree', searchFree fs base 0 (fs.length + 1), ?_, rfl, ?_⟩
  · by_contra hgt
    push_neg at hgt
    exact hfree (hleast j (by omega) (by omega))
  · intro j' hj'
    exact hleast j' (by omega) hj'

/-- Witness for C8 at a concrete occupied backup directory. -/
theorem backup_suffix_search_witness :
    findBackupPath ["backup/a.jpg"] "backup/a.jpg" ∉
      (["backup/a.jpg"] : List String) ∧
    ∃ i, i ≤ (["backup/a.jpg"] : List String).length ∧
      findBackupPath ["backup/a.jpg"] "backup/a.jpg" =
        candidate "backup/a.jpg" i ∧
      ∀ j, j < i → candidate "backup/a.jpg" j ∈
        (["backup/a.jpg"] : List String) :=
  backup_suffix_search_monotone_terminates ["backup/a.jpg"] "backup/a.jpg"
